import Mathlib

/-!
Verification of the filtering and aggregation core of `dashboard_app.py`
(misramanas/sales_streamlit_kaggle).

The embedding below models the pandas operations of the script:
  * the row filter built on lines 81-87 (`df_filtered`),
  * the column reductions on lines 98 (`sum`), 106 (`mean`) and 114 (`len`),
  * the grouped sums on lines 136/156/229 (`groupby(col)[val].sum()`,
    optionally followed by `sort_values` and `head(n)`),
  * the widget defaults on lines 53-78 (`min`/`max` of the date column and
    `unique()` of each categorical column).

Dates are triples (year, month, day) compared lexicographically, which is how
pandas datetimes compare.  Monetary values are rationals.  `groupby(col)`
lists the distinct keys in sorted order (pandas default `sort=True`);
`sort_values` is modelled as a stable sort (pandas does not guarantee
stability for its default quicksort, so tie order in the model fixes one
concrete behaviour).  `unique()` keeps first occurrences in row order.
A pandas `mean()` of an empty column is NaN; the model returns `none` there.
-/

namespace Sales

/-- Calendar date as stored in the `Order_Date` column after
`pd.to_datetime` (line 40): year, month, day, compared lexicographically. -/
structure Date where
  year : Int
  month : Nat
  day : Nat
deriving DecidableEq, Repr

/-- Boolean date comparison, lexicographic on (year, month, day). -/
def dateLeB (a b : Date) : Bool :=
  decide (a.year < b.year) ||
    (decide (a.year = b.year) &&
      (decide (a.month < b.month) ||
        (decide (a.month = b.month) && decide (a.day ≤ b.day))))

/-- Propositional form of the lexicographic date order. -/
def dateLe (a b : Date) : Prop :=
  a.year < b.year ∨
    (a.year = b.year ∧ (a.month < b.month ∨ (a.month = b.month ∧ a.day ≤ b.day)))

theorem dateLeB_iff (a b : Date) : dateLeB a b = true ↔ dateLe a b := by
  simp [dateLeB, dateLe]

instance (a b : Date) : Decidable (dateLe a b) :=
  decidable_of_iff _ (dateLeB_iff a b)

theorem dateLe_refl (a : Date) : dateLe a a := by
  simp [dateLe]

theorem dateLe_trans {a b c : Date} (h1 : dateLe a b) (h2 : dateLe b c) :
    dateLe a c := by
  simp only [dateLe] at h1 h2 ⊢
  omega

theorem dateLe_total (a b : Date) : dateLe a b ∨ dateLe b a := by
  simp only [dateLe]
  omega

/-- One row of the loaded table: the columns of `sales_data.csv` used by the
dashboard, with `Order_Date` already coerced to a date (load step,
lines 38-44).  The derived `Month`/`Year` columns are recovered from
`Order_Date` by the projections below. -/
structure Row where
  Category : String
  Product : String
  Region : String
  Customer_Segment : String
  Payment_Method : String
  Order_Date : Date
  Quantity : Nat
  Final_Price : Rat
  Discount_Amount : Rat
  Discount_Percent : Rat
deriving DecidableEq, Repr

/-- Derived `Month` column: `df['Order_Date'].dt.month` (line 41). -/
def monthCol (r : Row) : Nat := r.Order_Date.month

/-- Derived `Year` column: `df['Order_Date'].dt.year` (line 43). -/
def yearCol (r : Row) : Int := r.Order_Date.year

/-- A table is the ordered list of its rows. -/
abbrev Table := List Row

/-- Filter criteria collected from the sidebar widgets (lines 56-78). -/
structure Criteria where
  date_start : Date
  date_end : Date
  categories : List String
  regions : List String
  segments : List String
deriving DecidableEq, Repr

/-- Row predicate of the boolean mask on lines 81-87: the conjunction of the
two inclusive date bounds and the three `isin` membership tests. -/
def rowMatches (c : Criteria) (r : Row) : Bool :=
  dateLeB c.date_start r.Order_Date &&
    dateLeB r.Order_Date c.date_end &&
    decide (r.Category ∈ c.categories) &&
    decide (r.Region ∈ c.regions) &&
    decide (r.Customer_Segment ∈ c.segments)

/-- The filter of lines 81-87 (`df_filtered = df[mask]`): keep exactly the
rows satisfying the mask, in their original order. -/
def filterTable (t : Table) (c : Criteria) : Table :=
  t.filter (rowMatches c)

/-- Modelled from the spec: the engine error kinds of spec section 7.  The
source defines no error type at all — this type exists only to state the
spec's claimed raising behaviour next to the code's actual behaviour. -/
inductive EngineError
  | InvalidRangeError
  | DataFormatError
deriving DecidableEq, Repr

/-- Modelled from the spec: the spec's `filter` contract (section 4.2),
which raises `InvalidRangeError` whenever `date_start > date_end` and
otherwise behaves like the code's filter. -/
def filterSpec (t : Table) (c : Criteria) : Except EngineError Table :=
  if dateLeB c.date_start c.date_end then Except.ok (filterTable t c)
  else Except.error EngineError.InvalidRangeError

/-- Total revenue metric: `df_filtered['Final_Price'].sum()` (line 98),
generalised over the summed column.  A pandas sum of an empty column is 0. -/
def aggregate_sum (t : Table) (v : Row → Rat) : Rat :=
  (t.map v).sum

/-- Order count metric: `len(df_filtered)` (line 114). -/
def aggregate_count (t : Table) : Nat :=
  t.length

/-- Average order value: `df_filtered['Final_Price'].mean()` (line 106).
A pandas mean of an empty column is NaN, modelled here as `none`. -/
def aggregate_mean (t : Table) (v : Row → Rat) : Option Rat :=
  if t.length = 0 then none else some (aggregate_sum t v / (t.length : Rat))

/-- Helper of `uniqueFirst`: drop every element already seen. -/
def uniqAux {α : Type} [DecidableEq α] : List α → List α → List α
  | [], _ => []
  | a :: as, seen =>
      if a ∈ seen then uniqAux as seen else a :: uniqAux as (a :: seen)

/-- Distinct values of a column in first-occurrence order, as produced by
`Series.unique()` (lines 62, 69, 76) and used by `groupby` before sorting. -/
def uniqueFirst {α : Type} [DecidableEq α] (l : List α) : List α :=
  uniqAux l []

theorem mem_uniqAux {α : Type} [DecidableEq α] (x : α) :
    ∀ (l seen : List α), x ∈ uniqAux l seen ↔ x ∈ l ∧ x ∉ seen := by
  intro l
  induction l with
  | nil => intro seen; simp [uniqAux]
  | cons a as ih =>
      intro seen
      by_cases ha : a ∈ seen
      · simp only [uniqAux, if_pos ha, ih, List.mem_cons]
        constructor
        · rintro ⟨hx, hs⟩; exact ⟨Or.inr hx, hs⟩
        · rintro ⟨hx | hx, hs⟩
          · exact absurd (hx ▸ ha) hs
          · exact ⟨hx, hs⟩
      · simp only [uniqAux, if_neg ha, List.mem_cons, ih]
        constructor
        · rintro (hx | ⟨hx, hs⟩)
          · exact ⟨Or.inl hx, hx ▸ ha⟩
          · exact ⟨Or.inr hx, fun hmem => hs (Or.inr hmem)⟩
        · rintro ⟨hx | hx, hs⟩
          · exact Or.inl hx
          · by_cases hxa : x = a
            · exact Or.inl hxa
            · exact Or.inr ⟨hx, fun hmem => by
                rcases hmem with h | h
                · exact hxa h
                · exact hs h⟩

theorem nodup_uniqAux {α : Type} [DecidableEq α] :
    ∀ (l seen : List α), (uniqAux l seen).Nodup := by
  intro l
  induction l with
  | nil => intro seen; simp [uniqAux]
  | cons a as ih =>
      intro seen
      by_cases ha : a ∈ seen
      · simpa [uniqAux, if_pos ha] using ih seen
      · simp only [uniqAux, if_neg ha, List.nodup_cons]
        refine ⟨fun hmem => ?_, ih (a :: seen)⟩
        exact ((mem_uniqAux a as (a :: seen)).mp hmem).2 (List.mem_cons_self a seen)

theorem mem_uniqueFirst {α : Type} [DecidableEq α] {x : α} {l : List α} :
    x ∈ uniqueFirst l ↔ x ∈ l := by
  simp [uniqueFirst, mem_uniqAux]

theorem nodup_uniqueFirst {α : Type} [DecidableEq α] (l : List α) :
    (uniqueFirst l).Nodup :=
  nodup_uniqAux l []

/-- Boolean comparison of strings by code points, character by character;
this is the order pandas uses when sorting string group keys. -/
def strLe (a b : String) : Bool :=
  go a.data b.data
where
  go : List Char → List Char → Bool
    | [], _ => true
    | _ :: _, [] => false
    | c :: cs, d :: ds =>
      if c.toNat < d.toNat then true
      else if d.toNat < c.toNat then false
      else go cs ds

/-- Propositional form of `strLe`, used as the sort relation for group keys. -/
def strLeRel (a b : String) : Prop := strLe a b = true

instance : DecidableRel strLeRel := fun _ _ =>
  inferInstanceAs (Decidable (_ = true))

/-- Per-key grouped sums: given the list of group keys, pair each key with
the sum of `v` over the rows whose `g`-value is that key. -/
def sumByKeys {κ : Type} [DecidableEq κ] (t : Table) (keys : List κ)
    (g : Row → κ) (v : Row → Rat) : List (κ × Rat) :=
  keys.map fun k => (k, ((t.filter fun r => decide (g r = k)).map v).sum)

/-- Distinct string group keys in sorted order, as `groupby(col)` (default
`sort=True`) lists them. -/
def stringKeys (t : Table) (g : Row → String) : List String :=
  List.insertionSort strLeRel (uniqueFirst (t.map g))

/-- Grouped sum over a string column: `df.groupby(g)[v].sum()`
(lines 136, 174, 187, 229). -/
def aggregate_sum_by (t : Table) (g : Row → String) (v : Row → Rat) :
    List (String × Rat) :=
  sumByKeys t (stringKeys t g) g v

/-- Distinct month keys in ascending numeric order, as `groupby('Month')`
lists them. -/
def monthKeys (t : Table) : List Nat :=
  List.insertionSort (fun a b : Nat => a ≤ b) (uniqueFirst (t.map monthCol))

/-- Monthly trend data: `df_filtered.groupby('Month')['Final_Price'].sum()`
(line 156).  The group key is the derived `Month` column alone. -/
def monthlyData (t : Table) : List (Nat × Rat) :=
  sumByKeys t (monthKeys t) monthCol Row.Final_Price

/-- Descending-by-sum comparison on (key, sum) pairs: the order requested by
`sort_values(ascending=False)` (line 229). -/
def descBySnd {κ : Type} (p q : κ × Rat) : Prop := q.2 ≤ p.2

instance {κ : Type} : DecidableRel (@descBySnd κ) := fun _ _ =>
  inferInstanceAs (Decidable (_ ≤ _))

instance {κ : Type} : IsTotal (κ × Rat) descBySnd :=
  ⟨fun a b => le_total b.2 a.2⟩

instance {κ : Type} : IsTrans (κ × Rat) descBySnd :=
  ⟨fun _ _ _ h1 h2 => le_trans h2 h1⟩

/-- Top products view:
`df.groupby(g)[v].sum().sort_values(ascending=False).head(n)` (line 229),
with the value sort modelled as a stable sort of the grouped sums. -/
def top_n_by_sum (t : Table) (g : Row → String) (v : Row → Rat) (n : Nat) :
    List (String × Rat) :=
  (List.insertionSort descBySnd (aggregate_sum_by t g v)).take n

/-- Smaller of two dates. -/
def dmin (a b : Date) : Date := if dateLeB a b then a else b

/-- Larger of two dates. -/
def dmax (a b : Date) : Date := if dateLeB a b then b else a

/-- Minimum of a date list (`df['Order_Date'].min()`, line 53); the default
value for the empty list is irrelevant to every use. -/
def listMinD : List Date → Date
  | [] => ⟨0, 1, 1⟩
  | d :: ds => ds.foldl dmin d

/-- Maximum of a date list (`df['Order_Date'].max()`, line 54). -/
def listMaxD : List Date → Date
  | [] => ⟨0, 1, 1⟩
  | d :: ds => ds.foldl dmax d

/-- Earliest order date of a table (line 53). -/
def minDate (t : Table) : Date := listMinD (t.map Row.Order_Date)

/-- Latest order date of a table (line 54). -/
def maxDate (t : Table) : Date := listMaxD (t.map Row.Order_Date)

/-- The widget default criteria (lines 56-78): the full date span of the
table and the full distinct-value list of each categorical column. -/
def defaultCriteria (t : Table) : Criteria :=
  ⟨minDate t, maxDate t,
    uniqueFirst (t.map Row.Category),
    uniqueFirst (t.map Row.Region),
    uniqueFirst (t.map Row.Customer_Segment)⟩

theorem dateLe_dmin_left (a b : Date) : dateLe (dmin a b) a := by
  unfold dmin
  by_cases h : dateLeB a b = true
  · rw [if_pos h]; exact dateLe_refl a
  · rw [if_neg h]
    rcases dateLe_total a b with hab | hba
    · exact absurd ((dateLeB_iff a b).mpr hab) h
    · exact hba

theorem dateLe_dmin_right (a b : Date) : dateLe (dmin a b) b := by
  unfold dmin
  by_cases h : dateLeB a b = true
  · rw [if_pos h]; exact (dateLeB_iff a b).mp h
  · rw [if_neg h]; exact dateLe_refl b

theorem dateLe_left_dmax (a b : Date) : dateLe a (dmax a b) := by
  unfold dmax
  by_cases h : dateLeB a b = true
  · rw [if_pos h]; exact (dateLeB_iff a b).mp h
  · rw [if_neg h]; exact dateLe_refl a

theorem dateLe_right_dmax (a b : Date) : dateLe b (dmax a b) := by
  unfold dmax
  by_cases h : dateLeB a b = true
  · rw [if_pos h]; exact dateLe_refl b
  · rw [if_neg h]
    rcases dateLe_total a b with hab | hba
    · exact absurd ((dateLeB_iff a b).mpr hab) h
    · exact hba

theorem foldl_dmin_le (ds : List Date) :
    ∀ a : Date, dateLe (ds.foldl dmin a) a ∧ ∀ d ∈ ds, dateLe (ds.foldl dmin a) d := by
  induction ds with
  | nil => intro a; exact ⟨dateLe_refl a, by simp⟩
  | cons d ds ih =>
      intro a
      have h := ih (dmin a d)
      refine ⟨dateLe_trans h.1 (dateLe_dmin_left a d), ?_⟩
      intro x hx
      rcases List.mem_cons.mp hx with hx | hx
      · subst hx; exact dateLe_trans h.1 (dateLe_dmin_right a x)
      · exact h.2 x hx

theorem foldl_le_dmax (ds : List Date) :
    ∀ a : Date, dateLe a (ds.foldl dmax a) ∧ ∀ d ∈ ds, dateLe d (ds.foldl dmax a) := by
  induction ds with
  | nil => intro a; exact ⟨dateLe_refl a, by simp⟩
  | cons d ds ih =>
      intro a
      have h := ih (dmax a d)
      refine ⟨dateLe_trans (dateLe_left_dmax a d) h.1, ?_⟩
      intro x hx
      rcases List.mem_cons.mp hx with hx | hx
      · subst hx; exact dateLe_trans (dateLe_right_dmax a x) h.1
      · exact h.2 x hx

theorem minDate_le {t : Table} {r : Row} (hr : r ∈ t) :
    dateLe (minDate t) r.Order_Date := by
  cases t with
  | nil => exact absurd hr (List.not_mem_nil r)
  | cons r0 rs =>
      have h := foldl_dmin_le (rs.map Row.Order_Date) r0.Order_Date
      rcases List.mem_cons.mp hr with hr | hr
      · exact hr ▸ h.1
      · exact h.2 r.Order_Date (List.mem_map_of_mem Row.Order_Date hr)

theorem le_maxDate {t : Table} {r : Row} (hr : r ∈ t) :
    dateLe r.Order_Date (maxDate t) := by
  cases t with
  | nil => exact absurd hr (List.not_mem_nil r)
  | cons r0 rs =>
      have h := foldl_le_dmax (rs.map Row.Order_Date) r0.Order_Date
      rcases List.mem_cons.mp hr with hr | hr
      · exact hr ▸ h.1
      · exact h.2 r.Order_Date (List.mem_map_of_mem Row.Order_Date hr)

theorem sum_map_zero {κ : Type} (K : List κ) :
    (K.map fun _ => (0 : Rat)).sum = 0 := by
  induction K with
  | nil => simp
  | cons k K ih => simp [ih]

theorem sum_map_ite_notmem {κ : Type} [DecidableEq κ] (K : List κ) (a : κ)
    (x : Rat) (ha : a ∉ K) :
    (K.map fun k => if a = k then x else 0).sum = 0 := by
  induction K with
  | nil => simp
  | cons k K ih =>
      have hne : ¬a = k := fun h => ha (h ▸ List.mem_cons_self k K)
      have hK : a ∉ K := fun h => ha (List.mem_cons_of_mem k h)
      simp [hne, ih hK]

theorem sum_map_ite_mem {κ : Type} [DecidableEq κ] (K : List κ) (a : κ)
    (x : Rat) (hnd : K.Nodup) (ha : a ∈ K) :
    (K.map fun k => if a = k then x else 0).sum = x := by
  induction K with
  | nil => exact absurd ha (List.not_mem_nil a)
  | cons k K ih =>
      rcases List.nodup_cons.mp hnd with ⟨hk, hndK⟩
      rcases List.mem_cons.mp ha with hak | haK
      · have hnotK : a ∉ K := hak ▸ hk
        subst hak
        rw [List.map_cons, List.sum_cons, if_pos rfl,
          sum_map_ite_notmem K a x hnotK, add_zero]
      · have hne : ¬a = k := fun h => hk (h ▸ haK)
        simp [hne, ih hndK haK]

theorem filterSum_cons {κ : Type} [DecidableEq κ] (g : Row → κ) (v : Row → Rat)
    (r : Row) (t : Table) (k : κ) :
    (((r :: t).filter fun x => decide (g x = k)).map v).sum
      = (if g r = k then v r else 0)
        + ((t.filter fun x => decide (g x = k)).map v).sum := by
  by_cases h : g r = k
  · simp [List.filter_cons, h]
  · simp [List.filter_cons, h]

theorem keySum_conserves {κ : Type} [DecidableEq κ] (g : Row → κ) (v : Row → Rat) :
    ∀ (t : Table) (K : List κ), K.Nodup → (∀ r ∈ t, g r ∈ K) →
      (K.map fun k => ((t.filter fun x => decide (g x = k)).map v).sum).sum
        = (t.map v).sum := by
  intro t
  induction t with
  | nil => intro K _ _; simp [sum_map_zero]
  | cons r t ih =>
      intro K hnd hcov
      have hrw :
          (K.map fun k => (((r :: t).filter fun x => decide (g x = k)).map v).sum)
            = K.map fun k =>
                (if g r = k then v r else 0)
                  + ((t.filter fun x => decide (g x = k)).map v).sum := by
        simp only [filterSum_cons]
      rw [hrw, List.sum_map_add,
        sum_map_ite_mem K (g r) (v r) hnd (hcov r (List.mem_cons_self r t)),
        ih K hnd fun x hx => hcov x (List.mem_cons_of_mem r hx)]
      simp

theorem sumByKeys_snd {κ : Type} [DecidableEq κ] (t : Table) (K : List κ)
    (g : Row → κ) (v : Row → Rat) :
    (sumByKeys t K g v).map Prod.snd
      = K.map fun k => ((t.filter fun r => decide (g r = k)).map v).sum := by
  simp [sumByKeys, List.map_map, Function.comp]

theorem sumByKeys_fst {κ : Type} [DecidableEq κ] (t : Table) (K : List κ)
    (g : Row → κ) (v : Row → Rat) :
    (sumByKeys t K g v).map Prod.fst = K := by
  unfold sumByKeys
  rw [List.map_map]
  have hcomp :
      (Prod.fst ∘ fun k : κ =>
          (k, ((t.filter fun r => decide (g r = k)).map v).sum)) = id := by
    funext k; rfl
  rw [hcomp, List.map_id]

theorem stringKeys_perm (t : Table) (g : Row → String) :
    (stringKeys t g).Perm (uniqueFirst (t.map g)) :=
  List.perm_insertionSort strLeRel (uniqueFirst (t.map g))

theorem stringKeys_nodup (t : Table) (g : Row → String) :
    (stringKeys t g).Nodup :=
  (stringKeys_perm t g).nodup_iff.mpr (nodup_uniqueFirst (t.map g))

theorem mem_stringKeys {t : Table} (g : Row → String) {r : Row} (hr : r ∈ t) :
    g r ∈ stringKeys t g :=
  (stringKeys_perm t g).mem_iff.mpr (mem_uniqueFirst.mpr (List.mem_map_of_mem g hr))

theorem monthKeys_perm (t : Table) :
    (monthKeys t).Perm (uniqueFirst (t.map monthCol)) :=
  List.perm_insertionSort (fun a b : Nat => a ≤ b) (uniqueFirst (t.map monthCol))

theorem monthKeys_nodup (t : Table) : (monthKeys t).Nodup :=
  (monthKeys_perm t).nodup_iff.mpr (nodup_uniqueFirst (t.map monthCol))

theorem mem_monthKeys {t : Table} {r : Row} (hr : r ∈ t) :
    monthCol r ∈ monthKeys t :=
  (monthKeys_perm t).mem_iff.mpr (mem_uniqueFirst.mpr (List.mem_map_of_mem monthCol hr))

/-- Convenience constructor for concrete test rows. -/
def mkRow (cat pr reg seg : String) (d : Date) (price : Rat) : Row :=
  ⟨cat, pr, reg, seg, "Credit Card", d, 1, price, 0, 0⟩

/-- One-row table used by the concrete error-handling checks. -/
def exT1 : Table := [mkRow "A" "P1" "West" "Consumer" ⟨2024, 1, 5⟩ 100]

/-- Inverted date range (start after end) over the span of `exT1`. -/
def invertedCrit : Criteria :=
  ⟨⟨2024, 2, 1⟩, ⟨2024, 1, 1⟩, ["A"], ["West"], ["Consumer"]⟩

/-- Criteria with an empty category set and otherwise permissive fields. -/
def emptyCatCrit : Criteria :=
  ⟨⟨2024, 1, 1⟩, ⟨2024, 12, 31⟩, [], ["West"], ["Consumer"]⟩

/-- First row of the tie-break example: product "B" occurs first. -/
def rowB4 : Row := mkRow "Office" "B" "West" "Consumer" ⟨2024, 1, 1⟩ 10

/-- Second row of the tie-break example: product "A" occurs second. -/
def rowA4 : Row := mkRow "Office" "A" "West" "Consumer" ⟨2024, 1, 2⟩ 10

/-- Two products with equal sums, encountered in the order B, A. -/
def exT4 : Table := [rowB4, rowA4]

/-- January 2023 row of the monthly-grouping example. -/
def rJan23 : Row := mkRow "Office" "P" "West" "Consumer" ⟨2023, 1, 10⟩ 10

/-- January 2024 row of the monthly-grouping example. -/
def rJan24 : Row := mkRow "Office" "P" "East" "Corporate" ⟨2024, 1, 20⟩ 20

/-- Two rows in the same calendar month of different years. -/
def exT10 : Table := [rJan23, rJan24]

/-- Sorted distinct product keys of `exT4`. -/
theorem stringKeys_exT4 : stringKeys exT4 Row.Product = ["A", "B"] := by decide

/-- Grouped product sums of `exT4`: keys in sorted order, both sums equal. -/
theorem agg_exT4 :
    aggregate_sum_by exT4 Row.Product Row.Final_Price = [("A", 10), ("B", 10)] := by
  rw [aggregate_sum_by, stringKeys_exT4]
  simp [sumByKeys, exT4, rowB4, rowA4, mkRow, List.filter_cons]

/-- Top-2 products of `exT4`: the tie comes out in sorted key order. -/
theorem top2_exT4 :
    top_n_by_sum exT4 Row.Product Row.Final_Price 2 = [("A", 10), ("B", 10)] := by
  rw [top_n_by_sum, agg_exT4]
  simp [List.insertionSort, List.orderedInsert, descBySnd]

/-- C1: a row survives the filter of lines 81-87 exactly when it lies in the
source table, its `Order_Date` is within the inclusive date range, and its
`Category`, `Region` and `Customer_Segment` each belong to the respective
selected set; the five predicates are combined conjunctively. -/
theorem filter_retains_iff_conjunction (t : Table) (c : Criteria) (r : Row) :
    r ∈ filterTable t c ↔
      r ∈ t ∧ dateLe c.date_start r.Order_Date ∧ dateLe r.Order_Date c.date_end ∧
        r.Category ∈ c.categories ∧ r.Region ∈ c.regions ∧
        r.Customer_Segment ∈ c.segments := by
  simp [filterTable, List.mem_filter, rowMatches, Bool.and_eq_true,
    decide_eq_true_eq, dateLeB_iff, and_assoc]

/-- C2 counterexample: on a concrete table and an inverted date range, the
spec-modelled filter raises `InvalidRangeError`, while the code's filter
raises nothing and returns the empty table. -/
theorem inverted_range_no_error :
    filterSpec exT1 invertedCrit = Except.error EngineError.InvalidRangeError ∧
      filterTable exT1 invertedCrit = [] := by
  constructor
  · rfl
  · rfl

/-- C2 amended: filtering with `date_start > date_end` does not raise; the
conjunctive date bounds are unsatisfiable, so the result is the empty table. -/
theorem inverted_range_returns_empty (t : Table) (c : Criteria)
    (h : ¬ dateLe c.date_start c.date_end) : filterTable t c = [] := by
  apply List.filter_eq_nil_iff.mpr
  intro r hr hm
  simp only [rowMatches, Bool.and_eq_true, decide_eq_true_eq, dateLeB_iff] at hm
  exact h (dateLe_trans hm.1.1.1.1 hm.1.1.1.2)

/-- C2 witness: the amended statement applied to the concrete inverted range. -/
theorem inverted_range_returns_empty_witness :
    filterTable exT1 invertedCrit = [] :=
  inverted_range_returns_empty exT1 invertedCrit (by decide)

/-- C3 counterexample: the mean of `Final_Price` over the empty table is NaN
(`none` in the model), not `0` as the spec claims. -/
theorem empty_mean_not_zero :
    aggregate_mean ([] : Table) Row.Final_Price = none ∧
      aggregate_mean ([] : Table) Row.Final_Price ≠ some 0 := by
  constructor
  · rfl
  · simp [aggregate_mean]

/-- C3 amended: on the empty table the count is 0 and the sum is 0, while the
mean is NaN (`none`); all three reductions are total functions and raise
nothing on empty input. -/
theorem empty_table_aggregates (v : Row → Rat) :
    aggregate_mean ([] : Table) v = none ∧
      aggregate_count ([] : Table) = 0 ∧
      aggregate_sum ([] : Table) v = 0 :=
  ⟨rfl, rfl, rfl⟩

/-- C4 counterexample: in `exT4` the first-encountered product order is
B, A and the two sums tie at 10, yet the code returns the tie in sorted key
order A, B — not the first-encountered order B, A claimed by the spec (and
the sums are not strictly descending). -/
theorem top_n_tie_not_first_encountered :
    uniqueFirst (exT4.map Row.Product) = ["B", "A"] ∧
      top_n_by_sum exT4 Row.Product Row.Final_Price 2 = [("A", 10), ("B", 10)] ∧
      top_n_by_sum exT4 Row.Product Row.Final_Price 2 ≠ [("B", 10), ("A", 10)] := by
  refine ⟨by decide, top2_exT4, ?_⟩
  rw [top2_exT4]
  simp

/-- C4 amended: `top_n_by_sum` returns `min n (number of distinct group
values)` entries, in non-increasing (not necessarily strictly decreasing)
order of sum, and every returned entry occurs with the same sum in
`aggregate_sum_by`; the relative order of entries with equal sums is left
unspecified (the code's `sort_values` gives no tie-order guarantee, and the
counterexample shows it is not the first-encountered order the original
claim states). -/
theorem top_n_by_sum_spec (t : Table) (g : Row → String) (v : Row → Rat)
    (n : Nat) :
    (top_n_by_sum t g v n).length = min n (uniqueFirst (t.map g)).length ∧
      (top_n_by_sum t g v n).Pairwise (fun p q => q.2 ≤ p.2) ∧
      ∀ p ∈ top_n_by_sum t g v n, p ∈ aggregate_sum_by t g v := by
  refine ⟨?_, ?_, ?_⟩
  · rw [top_n_by_sum, List.length_take,
      (List.perm_insertionSort descBySnd (aggregate_sum_by t g v)).length_eq]
    rw [aggregate_sum_by, sumByKeys, List.length_map, stringKeys,
      (List.perm_insertionSort strLeRel (uniqueFirst (t.map g))).length_eq]
  · exact List.Pairwise.sublist
      (List.take_sublist n (List.insertionSort descBySnd (aggregate_sum_by t g v)))
      (List.sorted_insertionSort descBySnd (aggregate_sum_by t g v))
  · intro p hp
    exact (List.perm_insertionSort descBySnd (aggregate_sum_by t g v)).mem_iff.mp
      ((List.take_sublist n _).mem hp)

/-- C4 witness: the amended statement applied to the concrete table `exT4`,
discharging the membership hypothesis at the entry ("A", 10). -/
theorem top_n_by_sum_spec_witness :
    ("A", (10 : Rat)) ∈ aggregate_sum_by exT4 Row.Product Row.Final_Price :=
  (top_n_by_sum_spec exT4 Row.Product Row.Final_Price 2).2.2 ("A", 10)
    (by rw [top2_exT4]; exact List.mem_cons_self _ _)

/-- C5: the grouped sums of `aggregate_sum_by` add up to the sum of the value
column over the whole table (conservation law). -/
theorem aggregate_sum_by_conserves (t : Table) (g : Row → String)
    (v : Row → Rat) :
    ((aggregate_sum_by t g v).map Prod.snd).sum = (t.map v).sum := by
  rw [aggregate_sum_by, sumByKeys_snd]
  exact keySum_conserves g v t (stringKeys t g) (stringKeys_nodup t g)
    fun r hr => mem_stringKeys g hr

/-- C6: the filter of lines 81-87 is idempotent — filtering an already
filtered table with the same criteria changes nothing. -/
theorem filter_idempotent (t : Table) (c : Criteria) :
    filterTable (filterTable t c) c = filterTable t c := by
  simp [filterTable, List.filter_filter]

/-- C7: filtering with the widget defaults — the table's own minimum and
maximum order dates and the full distinct-value list of every categorical
column — returns the table unchanged. -/
theorem filter_defaults_identity (t : Table) :
    filterTable t (defaultCriteria t) = t := by
  apply List.filter_eq_self.mpr
  intro r hr
  simp only [rowMatches, defaultCriteria, Bool.and_eq_true, decide_eq_true_eq,
    dateLeB_iff]
  exact ⟨⟨⟨⟨minDate_le hr, le_maxDate hr⟩,
      mem_uniqueFirst.mpr (List.mem_map_of_mem Row.Category hr)⟩,
      mem_uniqueFirst.mpr (List.mem_map_of_mem Row.Region hr)⟩,
      mem_uniqueFirst.mpr (List.mem_map_of_mem Row.Customer_Segment hr)⟩

/-- C8: an empty selection for any one of the three categorical criteria
makes the membership test unsatisfiable, so the filter returns the empty
table — an empty set matches nothing rather than meaning no restriction. -/
theorem empty_categorical_matches_nothing (t : Table) (c : Criteria)
    (h : c.categories = [] ∨ c.regions = [] ∨ c.segments = []) :
    filterTable t c = [] := by
  apply List.filter_eq_nil_iff.mpr
  intro r hr hm
  simp only [rowMatches, Bool.and_eq_true, decide_eq_true_eq, dateLeB_iff] at hm
  rcases h with h | h | h
  · rw [h] at hm; exact List.not_mem_nil r.Category hm.1.1.2
  · rw [h] at hm; exact List.not_mem_nil r.Region hm.1.2
  · rw [h] at hm; exact List.not_mem_nil r.Customer_Segment hm.2

/-- C8 witness: the statement applied to a concrete table and criteria whose
category set is empty. -/
theorem empty_categorical_matches_nothing_witness :
    filterTable exT1 emptyCatCrit = [] :=
  empty_categorical_matches_nothing exT1 emptyCatCrit (Or.inl rfl)

/-- C9: the filtered table is a sublist of the source — the surviving rows
keep their original relative order and are unchanged whole rows (every
column intact) — and its members are exactly the source rows satisfying the
mask; the source table is a value the pure filter never mutates. -/
theorem filter_preserves_order_and_rows (t : Table) (c : Criteria) :
    (filterTable t c).Sublist t ∧
      ∀ r : Row, r ∈ filterTable t c ↔ r ∈ t ∧ rowMatches c r = true :=
  ⟨List.filter_sublist t, fun _ => List.mem_filter⟩

/-- C10: the monthly trend of line 156 groups by the derived numeric `Month`
column alone: the group keys are distinct months, any two rows sharing a
calendar month — regardless of year — fall into the same single entry, and
that entry's sum ranges over every row of that month with no constraint on
the year. -/
theorem monthly_groups_by_month_only (t : Table) (r1 r2 : Row) (h1 : r1 ∈ t)
    (h2 : r2 ∈ t) (hm : r1.Order_Date.month = r2.Order_Date.month) :
    ((monthlyData t).map Prod.fst).Nodup ∧
      ∃ p ∈ monthlyData t, p.1 = monthCol r1 ∧ p.1 = monthCol r2 ∧
        r1 ∈ t.filter (fun r => decide (monthCol r = p.1)) ∧
        r2 ∈ t.filter (fun r => decide (monthCol r = p.1)) ∧
        p.2 = ((t.filter fun r => decide (monthCol r = p.1)).map
          Row.Final_Price).sum := by
  constructor
  · rw [monthlyData, sumByKeys_fst]
    exact monthKeys_nodup t
  · refine ⟨(monthCol r1,
      ((t.filter fun r => decide (monthCol r = monthCol r1)).map
        Row.Final_Price).sum), ?_, rfl, ?_, ?_, ?_, rfl⟩
    · rw [monthlyData, sumByKeys]
      exact List.mem_map_of_mem _ (mem_monthKeys h1)
    · simp [monthCol, hm]
    · exact List.mem_filter.mpr ⟨h1, by simp⟩
    · exact List.mem_filter.mpr ⟨h2, by simp [monthCol, hm]⟩

/-- C10 witness: applied to the concrete table with a January 2023 row and a
January 2024 row. -/
theorem monthly_groups_by_month_only_witness :
    ((monthlyData exT10).map Prod.fst).Nodup ∧
      ∃ p ∈ monthlyData exT10, p.1 = monthCol rJan23 ∧ p.1 = monthCol rJan24 ∧
        rJan23 ∈ exT10.filter (fun r => decide (monthCol r = p.1)) ∧
        rJan24 ∈ exT10.filter (fun r => decide (monthCol r = p.1)) ∧
        p.2 = ((exT10.filter fun r => decide (monthCol r = p.1)).map
          Row.Final_Price).sum :=
  monthly_groups_by_month_only exT10 rJan23 rJan24 (List.mem_cons_self _ _)
    (List.mem_cons_of_mem _ (List.mem_cons_self _ _)) rfl

end Sales
